import Mathlib

/-!
Verification of the insert-size mixture-model estimator in
`7_reassembly/scripts/7_reassembly.py`: the EM fit for the two-component
Gaussian mixture of insert sizes, the quantile-split initializer, the
classification-cutoff policy, the intra/inter-reference pair counter, the
chimeric-ratio formulas, and the shell pipeline that samples insert sizes.
Each Python function is embedded as a Lean definition over exact arithmetic
(`ℚ` where the code manipulates parsed decimal data, `ℝ` where it calls the
Gaussian density), and the spec's testable properties are settled as theorems.
-/

/-! ### CutoffDeriver (main, the try-block computing `cutoff`) -/

/-- Branch policy of the cutoff computation in `main`: given the two
thresholds `th_C = mu_C + ppf(0.05)*sigma_C` and `th_N = mu_N + ppf(0.95)*sigma_N`,
mirror the if/elif/else chain of the source. -/
noncomputable def derive_cutoff (thC thN : ℝ) : ℝ :=
  if thN ≤ 0 then max thC 100
  else if thC ≤ 0 then max thN 100
  else max (min thC thN) 100

/-- The `except:` fallback value of the cutoff computation. -/
noncomputable def cutoff_default : ℝ := 500

/-! ### ChimericRatioEstimator (main, lines computing the two ratios) -/

/-- Value of a derived ratio: a finite number, the float NaN sentinel, or the
float +infinity sentinel. -/
inductive RatioVal where
  | val (x : ℝ)
  | nan
  | inf

/-- `(n * pi_C + m) / (n + m) if (n + m) > 0 else float('nan')`. -/
noncomputable def long_range_ratio (n m : ℕ) (piC : ℝ) : RatioVal :=
  if 0 < n + m then RatioVal.val ((n * piC + m) / (n + m)) else RatioVal.nan

/-- `m / n if n > 0 else float('inf')`. -/
noncomputable def ratio_3d (n m : ℕ) : RatioVal :=
  if 0 < n then RatioVal.val ((m : ℝ) / n) else RatioVal.inf

/-! ### PairCounter (`count_intra_inter_pairs`) -/

/-- One SAM alignment record as seen by `count_intra_inter_pairs`: the flag
(used by the `samtools view -f 1 -F 0x904` pre-filter) and the tab-separated
fields of the line. -/
structure SamRec where
  flag : ℕ
  fields : List String

/-- The `samtools view -f 1 -F 0x904` filter: keep records that are paired
(flag bit 0x1 set) and not unmapped/secondary/supplementary
(none of bits 0x4, 0x100, 0x800 set). -/
def samKeep (r : SamRec) : Bool :=
  (r.flag &&& 1 == 1) && (r.flag &&& 0x904 == 0)

/-- `fields[0]`, the read name. -/
def qnameOf (r : SamRec) : String := r.fields.getD 0 ""

/-- `fields[2]`, the reference name. -/
def rnameOf (r : SamRec) : String := r.fields.getD 2 ""

/-- `fields[6]`, the mate reference name. -/
def mrnmOf (r : SamRec) : String := r.fields.getD 6 ""

/-- The record loop of `count_intra_inter_pairs`: skip records with fewer
than 7 fields, skip read names already seen, otherwise classify the pair as
intra-reference (`n`) when the mate reference is `=` or equals the reference,
else inter-reference (`m`). -/
def pairLoop : List SamRec → List String → ℕ → ℕ → ℕ × ℕ
  | [], _, n, m => (n, m)
  | r :: rest, seen, n, m =>
    if r.fields.length < 7 then pairLoop rest seen n m
    else if qnameOf r ∈ seen then pairLoop rest seen n m
    else if mrnmOf r = "=" ∨ mrnmOf r = rnameOf r then
      pairLoop rest (qnameOf r :: seen) (n + 1) m
    else
      pairLoop rest (qnameOf r :: seen) n (m + 1)

/-- `count_intra_inter_pairs`: run the loop over the flag-filtered stream with
an empty seen-set and zero counts. -/
def count_intra_inter_pairs (recs : List SamRec) : ℕ × ℕ :=
  pairLoop (recs.filter samKeep) [] 0 0

/-- Read names of the records the loop does not skip for field count:
those with at least 7 fields. -/
def pairNames (l : List SamRec) : List String :=
  (l.filter (fun r => decide (7 ≤ r.fields.length))).map qnameOf

/-! ### MixtureInitializer (`init_params`) -/

/-- `np.percentile(l, p)` with the default linear interpolation: sort
ascending, take the virtual index `pos = p/100 * (n-1)`, and interpolate
between the neighbouring order statistics. -/
def percentile (l : List ℚ) (p : ℚ) : ℚ :=
  let s := l.insertionSort (· ≤ ·)
  let n := l.length
  let pos := p / 100 * ((n : ℚ) - 1)
  let i := (⌊pos⌋).toNat
  let frac := pos - (i : ℚ)
  let lo := s.getD i 0
  let hi := s.getD (min (i + 1) (n - 1)) 0
  lo + frac * (hi - lo)

/-- `lower = data[data <= q]` with the fallback
`data[:max(1, len(data)//2)]` when that selection is empty. -/
def initLower (data : List ℚ) (f : ℚ) : List ℚ :=
  let q := percentile data (f * 100)
  let lower := data.filter (fun x => x ≤ q)
  if lower.isEmpty then data.take (max 1 (data.length / 2)) else lower

/-- `upper = data[data > q]` with the fallback
`data[max(1, len(data)//2):]` when that selection is empty. -/
def initUpper (data : List ℚ) (f : ℚ) : List ℚ :=
  let q := percentile data (f * 100)
  let upper := data.filter (fun x => q < x)
  if upper.isEmpty then data.drop (max 1 (data.length / 2)) else upper

/-- `np.mean`. -/
def listMean (l : List ℚ) : ℚ := l.sum / (l.length : ℚ)

/-- `np.std(ddof=1)`: square root of the Bessel-corrected sample variance. -/
noncomputable def sampleStdQ (l : List ℚ) : ℝ :=
  Real.sqrt (((l.map (fun x => (x - listMean l) ^ 2)).sum / ((l.length : ℚ) - 1) : ℚ))

/-- The 6-tuple produced by `init_params`; means and weights are rational
functions of the parsed data, the standard deviations involve a square root. -/
structure InitParams where
  mu_N : ℚ
  mu_C : ℚ
  sigma_N : ℝ
  sigma_C : ℝ
  pi_N : ℚ
  pi_C : ℚ

/-- `init_params(data, init_frac)`: default tuple on empty data, otherwise
quantile split (with fallbacks), group means, floored group standard
deviations, and the lower-group weight. -/
noncomputable def init_params (data : List ℚ) (f : ℚ) : InitParams :=
  if data.length = 0 then ⟨400, 2000, 100, 500, 4/5, 1/5⟩
  else
    ⟨listMean (initLower data f), listMean (initUpper data f),
     max (sampleStdQ (initLower data f)) 1, max (sampleStdQ (initUpper data f)) 1,
     ((initLower data f).length : ℚ) / (data.length : ℚ),
     1 - ((initLower data f).length : ℚ) / (data.length : ℚ)⟩

/-! ### EMFitter (`em_mix`) -/

/-- `scipy.stats.norm.pdf(x, mu, sigma)`: the Gaussian density. -/
noncomputable def normPdf (x mu sigma : ℝ) : ℝ :=
  Real.exp (-(x - mu) ^ 2 / (2 * sigma ^ 2)) / (sigma * Real.sqrt (2 * Real.pi))

/-- The six mixture parameters threaded through the EM iterations. -/
structure MixtureParams where
  mu_N : ℝ
  mu_C : ℝ
  sigma_N : ℝ
  sigma_C : ℝ
  pi_N : ℝ
  pi_C : ℝ

/-- Unnormalized chimeric weight `wC = pi_C * norm.pdf(x, mu_C, sigma_C)`. -/
noncomputable def wCf (p : MixtureParams) (x : ℝ) : ℝ :=
  p.pi_C * normPdf x p.mu_C p.sigma_C

/-- Unnormalized non-chimeric weight `wN = pi_N * norm.pdf(x, mu_N, sigma_N)`. -/
noncomputable def wNf (p : MixtureParams) (x : ℝ) : ℝ :=
  p.pi_N * normPdf x p.mu_N p.sigma_N

/-- `total = np.maximum(wC + wN, 1e-10)`. -/
noncomputable def totalf (p : MixtureParams) (x : ℝ) : ℝ :=
  max (wCf p x + wNf p x) 1e-10

/-- Responsibility `gamma_C = wC / total`. -/
noncomputable def gammaC (p : MixtureParams) (x : ℝ) : ℝ := wCf p x / totalf p x

/-- Responsibility `gamma_N = wN / total`. -/
noncomputable def gammaN (p : MixtureParams) (x : ℝ) : ℝ := wNf p x / totalf p x

/-- `sum_gamma_C = np.sum(gamma_C)`. -/
noncomputable def sumGammaC (data : List ℝ) (p : MixtureParams) : ℝ :=
  (data.map (gammaC p)).sum

/-- `sum_gamma_N = np.sum(gamma_N)`. -/
noncomputable def sumGammaN (data : List ℝ) (p : MixtureParams) : ℝ :=
  (data.map (gammaN p)).sum

/-- M-step mean update for the C component (applied only when
`sum_gamma_C > 0`). -/
noncomputable def muCStep (data : List ℝ) (p : MixtureParams) : ℝ :=
  if 0 < sumGammaC data p then
    (data.map (fun x => gammaC p x * x)).sum / sumGammaC data p
  else p.mu_C

/-- M-step deviation update for the C component, floored at `1e-6`
(applied only when `sum_gamma_C > 0`); uses the already-updated mean. -/
noncomputable def sigmaCStep (data : List ℝ) (p : MixtureParams) : ℝ :=
  if 0 < sumGammaC data p then
    max (Real.sqrt ((data.map (fun x => gammaC p x * (x - muCStep data p) ^ 2)).sum
      / sumGammaC data p)) 1e-6
  else p.sigma_C

/-- M-step mean update for the N component (applied only when
`sum_gamma_N > 0`). -/
noncomputable def muNStep (data : List ℝ) (p : MixtureParams) : ℝ :=
  if 0 < sumGammaN data p then
    (data.map (fun x => gammaN p x * x)).sum / sumGammaN data p
  else p.mu_N

/-- M-step deviation update for the N component, floored at `1e-6`
(applied only when `sum_gamma_N > 0`); uses the already-updated mean. -/
noncomputable def sigmaNStep (data : List ℝ) (p : MixtureParams) : ℝ :=
  if 0 < sumGammaN data p then
    max (Real.sqrt ((data.map (fun x => gammaN p x * (x - muNStep data p) ^ 2)).sum
      / sumGammaN data p)) 1e-6
  else p.sigma_N

/-- One full EM iteration (E-step, M-step, weight update): the body of the
`for iteration in range(max_iter)` loop, excluding the convergence check.
`pi_C = gamma_C.mean()`, `pi_N = gamma_N.mean()`. -/
noncomputable def emStep (data : List ℝ) (p : MixtureParams) : MixtureParams :=
  ⟨muNStep data p, muCStep data p, sigmaNStep data p, sigmaCStep data p,
   sumGammaN data p / (data.length : ℝ), sumGammaC data p / (data.length : ℝ)⟩

/-- The log-likelihood computed after the M-step:
`np.sum(np.log(pi_C * norm.pdf(...) + pi_N * norm.pdf(...)))`. -/
noncomputable def emLogL (data : List ℝ) (p : MixtureParams) : ℝ :=
  (data.map (fun x => Real.log (wCf p x + wNf p x))).sum

/-- The iteration loop of `em_mix`: run up to the remaining iteration count,
breaking when the log-likelihood moved by less than `tol` since the previous
iteration. -/
noncomputable def emLoop (data : List ℝ) (tol : ℝ) :
    ℕ → Option ℝ → MixtureParams → MixtureParams
  | 0, _, p => p
  | k + 1, prevL, p =>
    let p' := emStep data p
    let newL := emLogL data p'
    match prevL with
    | some l => if |newL - l| < tol then p' else emLoop data tol k (some newL) p'
    | none => emLoop data tol k (some newL) p'

/-- `em_mix(data, ...)`: return the initial parameters unchanged on empty
data, otherwise iterate. -/
noncomputable def em_mix (data : List ℝ) (p : MixtureParams)
    (tol : ℝ) (max_iter : ℕ) : MixtureParams :=
  if data.length = 0 then p else emLoop data tol max_iter none p

/-! ### InsertSizeSampler (`sample_insert_sizes` shell pipeline) -/

/-- The tab-joined SAM line a record prints as, the text `grep` scans. -/
def sam_line : List (List Char) → List Char
  | [] => []
  | [f] => f
  | f :: g :: rest => f ++ '\t' :: sam_line (g :: rest)

/-- `grep -F -f patterns`: keep a line when some pattern occurs in it as a
substring (an empty pattern list keeps nothing). -/
def grepMatch (pats : List (List Char)) (line : List Char) : Bool :=
  decide (∃ p ∈ pats, p <:+: line)

/-- Decimal digits to a natural number, as `awk` reads a numeric field. -/
def parseNat (s : List Char) : ℕ :=
  s.foldl (fun acc c => 10 * acc + (c.toNat - 48)) 0

/-- Signed decimal field to an integer. -/
def parseInt : List Char → ℤ
  | '-' :: rest => -(parseNat rest : ℤ)
  | s => (parseNat s : ℤ)

/-- The awk body `$9 != 0 && $9 > -5000 && $9 < 5000 { if ($9 < 0) print -$9;
else print $9 }` on one template-length value. -/
def awkEmit (t : ℤ) : Option ℤ :=
  if t ≠ 0 ∧ -5000 < t ∧ t < 5000 then some |t| else none

/-- The extraction pipeline of `sample_insert_sizes`:
`samtools view | grep -F -f top_contigs | awk ...` — stream the records,
keep the lines `grep` matches against the first `k` whitelist names, and
emit the absolute template length (field 9) the awk filter passes. -/
def extract_insert_sizes (contigs : List (List Char)) (k : ℕ) :
    List (List (List Char)) → List ℤ
  | [] => []
  | r :: rest =>
    if grepMatch (contigs.take k) (sam_line r) then
      match awkEmit (parseInt (r.getD 8 [])) with
      | some v => v :: extract_insert_sizes contigs k rest
      | none => extract_insert_sizes contigs k rest
    else extract_insert_sizes contigs k rest

/-- The selection the spec's words describe for C9: keep exactly the records
whose reference name (field 3) is among the first `k` whitelist names, then
apply the same template-length filter. -/
def spec_extract_insert_sizes (contigs : List (List Char)) (k : ℕ) :
    List (List (List Char)) → List ℤ
  | [] => []
  | r :: rest =>
    if (contigs.take k).contains (r.getD 2 []) then
      match awkEmit (parseInt (r.getD 8 [])) with
      | some v => v :: spec_extract_insert_sizes contigs k rest
      | none => spec_extract_insert_sizes contigs k rest
    else spec_extract_insert_sizes contigs k rest

/-- `sample_insert_sizes` falls back to the fixed sample `300 400 500` when
the extraction produced nothing. -/
def sample_insert_sizes (contigs : List (List Char)) (k : ℕ)
    (recs : List (List (List Char))) : List ℤ :=
  let out := extract_insert_sizes contigs k recs
  if out.isEmpty then [300, 400, 500] else out

/-! ### Inputs used by counterexamples and witnesses -/

/-- The end-to-end sample of C3: `100 100 100 3000 3000`. -/
def sampleC3 : List ℚ := [100, 100, 100, 3000, 3000]

/-- A concrete intra-only stream for the C4 witness: the pair `r1` appears as
two record lines, the pair `r2` as one. -/
def recsW : List SamRec :=
  [⟨1, ["r1", "0", "c1", "0", "0", "0", "="]⟩,
   ⟨1, ["r1", "0", "c1", "0", "0", "0", "="]⟩,
   ⟨65, ["r2", "0", "c2", "0", "0", "0", "c2"]⟩]

/-- The whitelist name `c1` used in the C9 counterexample. -/
def contigC1 : List Char := ['c', '1']

/-- A record whose read name contains `c1` as a substring but whose reference
name (field 3) is `c2`, with template length 100 in field 9. -/
def recC9 : List (List Char) :=
  [['x', 'c', '1', 'x'], [], ['c', '2'], [], [], [], [], [], ['1', '0', '0']]

/-- A record whose reference name is exactly the whitelisted `c1`. -/
def recC9b : List (List Char) := [['r'], [], ['c', '1']]

/-- Initial parameters used for the C1 theorems: two unit-variance components
at 300 and 400 with equal weights. -/
noncomputable def pW1 : MixtureParams where
  mu_N := 300
  mu_C := 400
  sigma_N := 1
  sigma_C := 1
  pi_N := 1/2
  pi_C := 1/2

/-- The default parameters of `init_params` on empty data, used as the C6
witness input. -/
noncomputable def pInit : MixtureParams where
  mu_N := 400
  mu_C := 2000
  sigma_N := 100
  sigma_C := 500
  pi_N := 0.8
  pi_C := 0.2

/-! ### Theorems -/

/-- Claim C2: the derived cutoff equals `max(min(th_C, th_N), 100)` when both
thresholds are positive, `max(th_C, 100)` when `th_N ≤ 0`, `max(th_N, 100)`
when `th_C ≤ 0`, the failure fallback is 500, and in every case the result is
at least 100. -/
theorem derive_cutoff_policy (thC thN : ℝ) :
    (0 < thC → 0 < thN → derive_cutoff thC thN = max (min thC thN) 100) ∧
    (thN ≤ 0 → derive_cutoff thC thN = max thC 100) ∧
    (thC ≤ 0 → derive_cutoff thC thN = max thN 100) ∧
    100 ≤ derive_cutoff thC thN ∧ (100 : ℝ) ≤ cutoff_default := by
  unfold derive_cutoff cutoff_default
  refine ⟨?_, ?_, ?_, ?_, by norm_num⟩
  · intro hC hN
    rw [if_neg (by linarith), if_neg (by linarith)]
  · intro hN
    rw [if_pos hN]
  · intro hC
    by_cases hN : thN ≤ 0
    · rw [if_pos hN, max_eq_right (le_trans hC (by norm_num)),
        max_eq_right (le_trans hN (by norm_num))]
    · rw [if_neg hN, if_pos hC]
  · split_ifs <;> exact le_max_right _ _

/-- Witness for C2 at `th_C = 200`, `th_N = 300`. -/
theorem derive_cutoff_policy_w : derive_cutoff 200 300 = max (min 200 300) 100 :=
  (derive_cutoff_policy 200 300).1 (by norm_num) (by norm_num)

/-- Claim C5: the long-range ratio is `(n*pi_C + m)/(n+m)` with NaN at
`n+m = 0`, the 3d ratio is `m/n` with +infinity at `n = 0`, and at
`n = 0, m = 5, pi_C = 0.3` they evaluate to `1` and +infinity. -/
theorem ratio_formulas (n m : ℕ) (piC : ℝ) :
    (0 < n + m → long_range_ratio n m piC = RatioVal.val ((n * piC + m) / (n + m))) ∧
    (n + m = 0 → long_range_ratio n m piC = RatioVal.nan) ∧
    (0 < n → ratio_3d n m = RatioVal.val ((m : ℝ) / n)) ∧
    (n = 0 → ratio_3d n m = RatioVal.inf) ∧
    long_range_ratio 0 5 (3 / 10) = RatioVal.val 1 ∧
    ratio_3d 0 5 = RatioVal.inf := by
  unfold long_range_ratio ratio_3d
  refine ⟨fun h => if_pos h, fun h => if_neg (by omega),
    fun h => if_pos h, fun h => if_neg (by omega), ?_, ?_⟩
  · rw [if_pos (by norm_num)]
    norm_num
  · rw [if_neg (by norm_num)]

/-- Witness for C5 at `n = 3`, `m = 2`, `pi_C = 1/2`. -/
theorem ratio_formulas_w : long_range_ratio 3 2 (1 / 2) = RatioVal.val (7 / 10) := by
  have h := (ratio_formulas 3 2 (1 / 2)).1 (by norm_num)
  rw [h]
  norm_num

/-- Claim C8: on an empty insert-size sample, `em_mix` performs no iteration
and returns the initial parameters unchanged. -/
theorem em_mix_empty (p : MixtureParams) (tol : ℝ) (max_iter : ℕ) :
    em_mix [] p tol max_iter = p := by
  simp [em_mix]

/-- `np.percentile` of the C3 sample at 80 is 3000: the virtual index is
`0.8 * 4 = 3.2` and both neighbouring order statistics are 3000. -/
lemma percentile_c3 : percentile [(100 : ℚ), 100, 100, 3000, 3000] 80 = 3000 := by
  norm_num [percentile, List.insertionSort, List.orderedInsert, List.getD]
  simp

/-- The quantile split of the C3 sample keeps every value in the lower group. -/
lemma initLower_c3 :
    initLower [(100 : ℚ), 100, 100, 3000, 3000] (4 / 5) = [100, 100, 100, 3000, 3000] := by
  rw [initLower]
  norm_num [percentile_c3]

/-- The quantile upper group of the C3 sample is empty, so the positional
fallback supplies the last three values. -/
lemma initUpper_c3 :
    initUpper [(100 : ℚ), 100, 100, 3000, 3000] (4 / 5) = [100, 3000, 3000] := by
  rw [initUpper]
  norm_num [percentile_c3]

/-- Counterexample to claim C3: on the sample `100 100 100 3000 3000` with
split fraction `0.8`, the 0.8-quantile is 3000 (not 100), the quantile lower
group has 5 elements (not 4), the quantile upper group is empty (not of
size 1), and `mu_N` is 1260 (not approximately 100). -/
theorem init_params_c3_counterexample :
    percentile sampleC3 ((4 / 5) * 100) = 3000 ∧
    percentile sampleC3 ((4 / 5) * 100) ≠ 100 ∧
    (initLower sampleC3 (4 / 5)).length = 5 ∧
    (initLower sampleC3 (4 / 5)).length ≠ 4 ∧
    (sampleC3.filter (fun x => percentile sampleC3 ((4 / 5) * 100) < x)).length ≠ 1 ∧
    (init_params sampleC3 (4 / 5)).mu_N = 1260 ∧
    (init_params sampleC3 (4 / 5)).mu_N ≠ 100 := by
  have hq : percentile sampleC3 ((4 / 5) * 100) = 3000 := by
    norm_num [sampleC3, percentile_c3]
  have hmu : (init_params sampleC3 (4 / 5)).mu_N = 1260 := by
    rw [init_params]
    norm_num [sampleC3, initLower_c3, listMean]
  refine ⟨hq, by rw [hq]; norm_num, by norm_num [sampleC3, initLower_c3],
    by norm_num [sampleC3, initLower_c3], ?_, hmu, by rw [hmu]; norm_num⟩
  rw [hq]
  norm_num [sampleC3]

/-- Amended C3: on `100 100 100 3000 3000` with fraction `0.8`, the quantile
is 3000, the quantile split keeps all five values in the lower group and
leaves the upper group empty, so the positional fallback sets the upper group
to the last three values; the resulting parameters are `mu_N = 1260`,
`mu_C = 6100/3`, `pi_N = 1`, `pi_C = 0`. -/
theorem init_params_c3_amended :
    percentile sampleC3 ((4 / 5) * 100) = 3000 ∧
    initLower sampleC3 (4 / 5) = sampleC3 ∧
    initUpper sampleC3 (4 / 5) = [100, 3000, 3000] ∧
    (init_params sampleC3 (4 / 5)).mu_N = 1260 ∧
    (init_params sampleC3 (4 / 5)).mu_C = 6100 / 3 ∧
    (init_params sampleC3 (4 / 5)).pi_N = 1 ∧
    (init_params sampleC3 (4 / 5)).pi_C = 0 := by
  refine ⟨by norm_num [sampleC3, percentile_c3], initLower_c3, initUpper_c3,
    ?_, ?_, ?_, ?_⟩ <;>
    rw [init_params] <;>
    norm_num [sampleC3, initLower_c3, initUpper_c3, listMean]

/-- Counterexample to claim C7: on the non-empty one-element sample `[5]`,
the quantile split leaves the upper partition empty and the positional
fallback `data[max(1, len//2):]` is still empty. -/
theorem initUpper_singleton_counterexample :
    ([(5 : ℚ)] : List ℚ) ≠ [] ∧ initUpper [(5 : ℚ)] (4 / 5) = [] := by
  constructor
  · simp
  · rw [initUpper]
    norm_num [percentile, List.insertionSort, List.orderedInsert, List.getD]

/-- Amended C7: for every sample with at least two elements (and any split
fraction), both groups produced by `init_params`'s split-with-fallback are
non-empty. -/
theorem init_groups_nonempty (data : List ℚ) (f : ℚ) (h : 2 ≤ data.length) :
    initLower data f ≠ [] ∧ initUpper data f ≠ [] := by
  unfold initLower initUpper
  constructor
  · by_cases he : (data.filter (fun x => x ≤ percentile data (f * 100))).isEmpty
    · rw [if_pos he]
      intro ht
      rw [List.take_eq_nil_iff] at ht
      rcases ht with h1 | h1
      · omega
      · rw [h1] at h
        simp at h
    · rw [if_neg he]
      simpa [List.isEmpty_iff] using he
  · by_cases he : (data.filter (fun x => percentile data (f * 100) < x)).isEmpty
    · rw [if_pos he]
      intro ht
      rw [List.drop_eq_nil_iff] at ht
      omega
    · rw [if_neg he]
      simpa [List.isEmpty_iff] using he

/-- Witness for the amended C7 on the two-element sample `[1, 2]`. -/
theorem init_groups_nonempty_w :
    initLower [(1 : ℚ), 2] (4 / 5) ≠ [] ∧ initUpper [(1 : ℚ), 2] (4 / 5) ≠ [] :=
  init_groups_nonempty [1, 2] (4 / 5) (by simp)

/-- Cardinality step for a fresh name: adding it to the seen set shrinks the
remaining new-name set by exactly one. -/
lemma card_insert_sdiff (q : String) (A S : Finset String) (hq : q ∉ S) :
    (insert q A \ S).card = (A \ insert q S).card + 1 := by
  rw [Finset.insert_sdiff_of_not_mem _ hq, Finset.sdiff_insert]
  by_cases hqA : q ∈ A \ S
  · rw [Finset.insert_eq_self.mpr hqA]
    exact (Finset.card_erase_add_one hqA).symm
  · rw [Finset.card_insert_of_not_mem hqA, Finset.erase_eq_of_not_mem hqA]

/-- Loop invariant of `count_intra_inter_pairs`: the two counters together
grow by exactly the number of distinct not-yet-seen read names among the
records with at least 7 fields. -/
lemma pairLoop_sum (l : List SamRec) :
    ∀ (seen : List String) (n m : ℕ),
      (pairLoop l seen n m).1 + (pairLoop l seen n m).2
        = n + m + ((pairNames l).toFinset \ seen.toFinset).card := by
  induction l with
  | nil => intro seen n m; simp [pairLoop, pairNames]
  | cons r rest ih =>
    intro seen n m
    by_cases hlen : r.fields.length < 7
    · have hn : pairNames (r :: rest) = pairNames rest := by
        simp [pairNames, List.filter_cons, Nat.not_le.mpr hlen]
      rw [pairLoop, if_pos hlen, hn]
      exact ih seen n m
    · have hle : 7 ≤ r.fields.length := Nat.not_lt.mp hlen
      have hn : pairNames (r :: rest) = qnameOf r :: pairNames rest := by
        simp [pairNames, List.filter_cons, hle]
      by_cases hseen : qnameOf r ∈ seen
      · rw [pairLoop, if_neg hlen, if_pos hseen, hn, List.toFinset_cons,
          Finset.insert_sdiff_of_mem _ (List.mem_toFinset.mpr hseen)]
        exact ih seen n m
      · have hq : qnameOf r ∉ seen.toFinset := fun h => hseen (List.mem_toFinset.mp h)
        by_cases hcl : mrnmOf r = "=" ∨ mrnmOf r = rnameOf r
        · rw [pairLoop, if_neg hlen, if_neg hseen, if_pos hcl, hn, List.toFinset_cons,
            card_insert_sdiff _ _ _ hq, ih (qnameOf r :: seen) (n + 1) m,
            List.toFinset_cons]
          omega
        · rw [pairLoop, if_neg hlen, if_neg hseen, if_neg hcl, hn, List.toFinset_cons,
            card_insert_sdiff _ _ _ hq, ih (qnameOf r :: seen) n (m + 1),
            List.toFinset_cons]
          omega

/-- Claim C10: the two counters of `count_intra_inter_pairs` always total the
number of distinct read names among the paired, mapped, primary records with
at least 7 fields. -/
theorem pair_counts_total (recs : List SamRec) :
    (count_intra_inter_pairs recs).1 + (count_intra_inter_pairs recs).2
      = (pairNames (recs.filter samKeep)).dedup.length := by
  rw [count_intra_inter_pairs, pairLoop_sum]
  simp [List.card_toFinset]

/-- When every record's mate reference is `=` or its own reference, the
inter-reference counter never moves. -/
lemma pairLoop_intra (l : List SamRec)
    (h : ∀ r ∈ l, mrnmOf r = "=" ∨ mrnmOf r = rnameOf r) :
    ∀ (seen : List String) (n m : ℕ), (pairLoop l seen n m).2 = m := by
  induction l with
  | nil => intro seen n m; simp [pairLoop]
  | cons r rest ih =>
    intro seen n m
    have hr := h r (List.mem_cons_self r rest)
    have hrest := fun r' hm => h r' (List.mem_cons_of_mem r hm)
    rw [pairLoop]
    by_cases h1 : r.fields.length < 7
    · rw [if_pos h1]; exact ih hrest seen n m
    · rw [if_neg h1]
      by_cases h2 : qnameOf r ∈ seen
      · rw [if_pos h2]; exact ih hrest seen n m
      · rw [if_neg h2, if_pos hr]
        exact ih hrest (qnameOf r :: seen) (n + 1) m

/-- Claim C4: on a stream of paired, mapped, primary records (each with its
full field set) in which every record's mate reference equals its own
reference or the `=` sentinel, `count_intra_inter_pairs` returns `n` equal to
the number of distinct read names and `m = 0`; extra records for an
already-seen read name change neither count, since `n` counts the deduplicated
name list. -/
theorem pair_counts_intra (recs : List SamRec)
    (hkeep : ∀ r ∈ recs, samKeep r = true)
    (hlen : ∀ r ∈ recs, 7 ≤ r.fields.length)
    (hintra : ∀ r ∈ recs, mrnmOf r = "=" ∨ mrnmOf r = rnameOf r) :
    count_intra_inter_pairs recs = ((recs.map qnameOf).dedup.length, 0) := by
  have hf : recs.filter samKeep = recs := List.filter_eq_self.mpr hkeep
  have hm : (count_intra_inter_pairs recs).2 = 0 := by
    rw [count_intra_inter_pairs, hf]
    exact pairLoop_intra recs hintra [] 0 0
  have hnames : pairNames recs = recs.map qnameOf := by
    rw [pairNames, List.filter_eq_self.mpr fun r hr => decide_eq_true (hlen r hr)]
  have hsum : (count_intra_inter_pairs recs).1 + (count_intra_inter_pairs recs).2
      = (recs.map qnameOf).dedup.length := by
    rw [count_intra_inter_pairs, hf, pairLoop_sum, hnames]
    simp [List.card_toFinset]
  have h1 : (count_intra_inter_pairs recs).1 = (recs.map qnameOf).dedup.length := by
    omega
  exact Prod.ext h1 hm

/-- Witness for C4: the three-record stream with two distinct read names
yields `n = 2`, `m = 0`. -/
theorem pair_counts_intra_w :
    count_intra_inter_pairs recsW = ((recsW.map qnameOf).dedup.length, 0) :=
  pair_counts_intra recsW (by decide) (by decide) (by decide)

/-- Counterexample to claim C9: with whitelist `[c1]` and `K = 1`, the
pipeline keeps a record whose reference name is `c2` (the `grep -F` substring
match fires on the read name), while the spec's reference-name selection
drops it — the pipeline does not keep exactly the whitelisted-reference
records. -/
theorem sample_c9_counterexample :
    extract_insert_sizes [contigC1] 1 [recC9] = [100] ∧
    spec_extract_insert_sizes [contigC1] 1 [recC9] = [] ∧
    extract_insert_sizes [contigC1] 1 [recC9] ≠
      spec_extract_insert_sizes [contigC1] 1 [recC9] := by
  decide

/-- Every field of a record occurs as a substring of its tab-joined line. -/
lemma mem_infix_sam_line : ∀ (fs : List (List Char)) (f : List Char),
    f ∈ fs → f <:+: sam_line fs := by
  intro fs
  induction fs with
  | nil => intro f hf; simp at hf
  | cons a t ih =>
    intro f hf
    cases t with
    | nil =>
      rw [List.mem_singleton] at hf
      subst hf
      exact List.infix_rfl
    | cons b t2 =>
      rcases List.mem_cons.mp hf with hfa | hft
      · subst hfa
        exact ⟨[], '\t' :: sam_line (b :: t2), by simp [sam_line]⟩
      · obtain ⟨s, t3, heq⟩ := ih f hft
        exact ⟨a ++ '\t' :: s, t3, by simp [sam_line, ← heq]⟩

/-- Amended C9: the pipeline keeps exactly the records whose full line
contains one of the first K whitelist names as a substring — in particular
every record whose reference name is among those K names — and for each kept
record with non-zero template length `t` it emits `|t|` exactly when
`0 < |t| < 5000`. -/
theorem extract_insert_sizes_amended :
    (∀ (contigs : List (List Char)) (k : ℕ) (recs : List (List (List Char))),
      extract_insert_sizes contigs k recs
        = (recs.filter (fun r => grepMatch (contigs.take k) (sam_line r))).filterMap
            (fun r => awkEmit (parseInt (r.getD 8 [])))) ∧
    (∀ (contigs : List (List Char)) (k : ℕ) (r : List (List Char)),
      r.getD 2 [] ∈ contigs.take k → 3 ≤ r.length →
      grepMatch (contigs.take k) (sam_line r) = true) ∧
    (∀ t : ℤ, t ≠ 0 → (awkEmit t = some |t| ↔ 0 < |t| ∧ |t| < 5000)) := by
  refine ⟨?_, ?_, ?_⟩
  · intro contigs k recs
    induction recs with
    | nil => simp [extract_insert_sizes]
    | cons r rest ih =>
      rw [extract_insert_sizes, List.filter_cons]
      by_cases hg : grepMatch (contigs.take k) (sam_line r)
      · rw [if_pos hg, if_pos hg, List.filterMap_cons]
        cases hv : awkEmit (parseInt (r.getD 8 [])) with
        | none => simp [hv, ih]
        | some v => simp [hv, ih]
      · rw [if_neg hg, if_neg hg]
        exact ih
  · intro contigs k r hmem h3
    have hget : r.getD 2 [] ∈ r := by
      rw [List.getD_eq_getElem r [] (by omega)]
      exact List.getElem_mem _
    rw [grepMatch, decide_eq_true_eq]
    exact ⟨r.getD 2 [], hmem, mem_infix_sam_line r _ hget⟩
  · intro t ht
    rw [awkEmit]
    by_cases hc : t ≠ 0 ∧ -5000 < t ∧ t < 5000
    · rw [if_pos hc]
      exact iff_of_true rfl ⟨abs_pos.mpr ht, abs_lt.mpr hc.2⟩
    · rw [if_neg hc]
      exact iff_of_false (by simp) (fun h => hc ⟨ht, abs_lt.mp h.2⟩)

/-- Witness for the amended C9: a record whose reference name is in the
whitelist is kept by the grep filter. -/
theorem extract_insert_sizes_amended_w :
    grepMatch ([contigC1].take 1) (sam_line recC9b) = true :=
  extract_insert_sizes_amended.2.1 [contigC1] 1 recC9b (by decide) (by decide)

/-- `√(2π) ≥ 1`, so dividing a density by it can only shrink it. -/
lemma one_le_sqrt_two_pi : 1 ≤ Real.sqrt (2 * Real.pi) := by
  have hpi := Real.pi_gt_three
  have hs := Real.sq_sqrt (by linarith : (0:ℝ) ≤ 2 * Real.pi)
  have hn := Real.sqrt_nonneg (2 * Real.pi)
  nlinarith

/-- `√(2π) ≤ 3`. -/
lemma sqrt_two_pi_le_three : Real.sqrt (2 * Real.pi) ≤ 3 := by
  have h4 := Real.pi_lt_four
  calc Real.sqrt (2 * Real.pi) ≤ Real.sqrt 9 := Real.sqrt_le_sqrt (by linarith)
  _ = 3 := by
      rw [show (9:ℝ) = 3 ^ 2 by norm_num, Real.sqrt_sq (by norm_num : (0:ℝ) ≤ 3)]

/-- The Gaussian density is nonnegative for any nonnegative deviation. -/
lemma normPdf_nonneg (x mu sigma : ℝ) (h : 0 ≤ sigma) : 0 ≤ normPdf x mu sigma :=
  div_nonneg (Real.exp_nonneg _) (mul_nonneg h (Real.sqrt_nonneg _))

/-- The unit Gaussian density at its mean is `1/√(2π)`. -/
lemma normPdf_self (mu : ℝ) : normPdf mu mu 1 = 1 / Real.sqrt (2 * Real.pi) := by
  rw [normPdf]
  norm_num

/-- A unit Gaussian density at least `√80` deviations from its mean is below
`2⁻⁴⁰`. -/
lemma normPdf_unit_le (x mu : ℝ) (h : 40 ≤ (x - mu) ^ 2 / 2) :
    normPdf x mu 1 ≤ ((2:ℝ) ^ 40)⁻¹ := by
  have h1 : normPdf x mu 1 ≤ Real.exp (-(x - mu) ^ 2 / 2) := by
    rw [normPdf]
    have := one_le_sqrt_two_pi
    calc Real.exp (-(x - mu) ^ 2 / (2 * 1 ^ 2)) / (1 * Real.sqrt (2 * Real.pi))
        ≤ Real.exp (-(x - mu) ^ 2 / (2 * 1 ^ 2)) / 1 := by
          apply div_le_div_of_nonneg_left (Real.exp_nonneg _) (by norm_num) (by linarith)
      _ = Real.exp (-(x - mu) ^ 2 / 2) := by norm_num
  have h2 : Real.exp (-(x - mu) ^ 2 / 2) ≤ Real.exp (-40) :=
    Real.exp_le_exp.mpr (by linarith)
  have h3 : Real.exp (-40) ≤ ((2:ℝ) ^ 40)⁻¹ := by
    rw [Real.exp_neg]
    apply inv_anti₀ (by positivity)
    have hexp : Real.exp ((40:ℕ) * (1:ℝ)) = Real.exp 1 ^ (40:ℕ) := Real.exp_nat_mul 1 40
    have h21 : (2:ℝ) ≤ Real.exp 1 := by
      have := Real.add_one_le_exp 1
      linarith
    calc (2:ℝ) ^ 40 ≤ Real.exp 1 ^ 40 := pow_le_pow_left₀ (by norm_num) h21 40
      _ = Real.exp 40 := by
          rw [← hexp]
          norm_num
  linarith

/-- When a point's total unnormalized density clears the `1e-10` floor, its
two responsibilities sum to exactly one. -/
lemma gamma_sum_one (p : MixtureParams) (x : ℝ) (h : 1e-10 ≤ wCf p x + wNf p x) :
    gammaN p x + gammaC p x = 1 := by
  have hne : wCf p x + wNf p x ≠ 0 := by
    intro h0
    rw [h0] at h
    norm_num at h
  rw [gammaN, gammaC, totalf, max_eq_left (by norm_num; linarith), div_add_div_same,
    add_comm (wNf p x), div_self hne]

/-- Summing the two responsibility vectors over a sample in which every point
clears the density floor gives the sample size. -/
lemma sum_gammas (data : List ℝ) (p : MixtureParams)
    (h : ∀ x ∈ data, 1e-10 ≤ wCf p x + wNf p x) :
    sumGammaN data p + sumGammaC data p = data.length := by
  induction data with
  | nil => simp [sumGammaN, sumGammaC]
  | cons a rest ih =>
    have ha := gamma_sum_one p a (h a (List.mem_cons_self a rest))
    have ihr := ih fun x hx => h x (List.mem_cons_of_mem a hx)
    rw [sumGammaN, sumGammaC, List.map_cons, List.map_cons, List.sum_cons, List.sum_cons,
      List.length_cons]
    rw [sumGammaN, sumGammaC] at ihr
    push_cast
    linarith

/-- Counterexample to claim C1: on the sample `[4900]` (a valid insert size)
with parameters `pW1`, both densities underflow the `1e-10` floor, so after
one EM iteration `pi_N + pi_C` is below `0.1` — off from 1 by far more than
the claimed `1e-9` — and the responsibilities do not satisfy
`gamma_N = 1 - gamma_C`. -/
theorem em_pi_counterexample :
    1e-9 < |(emStep [(4900:ℝ)] pW1).pi_N + (emStep [(4900:ℝ)] pW1).pi_C - 1| ∧
    gammaN pW1 4900 ≠ 1 - gammaC pW1 4900 := by
  have hC : normPdf 4900 400 1 ≤ ((2:ℝ) ^ 40)⁻¹ :=
    normPdf_unit_le 4900 400 (by norm_num)
  have hN : normPdf 4900 300 1 ≤ ((2:ℝ) ^ 40)⁻¹ :=
    normPdf_unit_le 4900 300 (by norm_num)
  have hw : wCf pW1 4900 + wNf pW1 4900 ≤ 1e-11 := by
    have e1 : wCf pW1 4900 = 1 / 2 * normPdf 4900 400 1 := rfl
    have e2 : wNf pW1 4900 = 1 / 2 * normPdf 4900 300 1 := rfl
    have hb : ((2:ℝ) ^ 40)⁻¹ ≤ 1e-11 := by norm_num
    rw [e1, e2]
    linarith
  have hw0 : 0 ≤ wCf pW1 4900 + wNf pW1 4900 := by
    have g1 : (0:ℝ) ≤ wCf pW1 4900 :=
      mul_nonneg (by norm_num [pW1]) (normPdf_nonneg _ _ _ (by norm_num [pW1]))
    have g2 : (0:ℝ) ≤ wNf pW1 4900 :=
      mul_nonneg (by norm_num [pW1]) (normPdf_nonneg _ _ _ (by norm_num [pW1]))
    linarith
  have htot : totalf pW1 4900 = 1e-10 := by
    rw [totalf, max_eq_right (by linarith)]
  have hsum : gammaC pW1 4900 + gammaN pW1 4900 ≤ 1 / 10 := by
    rw [gammaC, gammaN, htot, div_add_div_same]
    rw [div_le_iff₀ (by norm_num : (0:ℝ) < 1e-10)]
    calc wCf pW1 4900 + wNf pW1 4900 ≤ 1e-11 := hw
      _ ≤ 1 / 10 * 1e-10 := by norm_num
  have hsum0 : 0 ≤ gammaC pW1 4900 + gammaN pW1 4900 := by
    rw [gammaC, gammaN, htot, div_add_div_same]
    positivity
  have hpiN : (emStep [(4900:ℝ)] pW1).pi_N = gammaN pW1 4900 := by
    show sumGammaN [(4900:ℝ)] pW1 / (([(4900:ℝ)] : List ℝ).length : ℝ) = _
    simp [sumGammaN]
  have hpiC : (emStep [(4900:ℝ)] pW1).pi_C = gammaC pW1 4900 := by
    show sumGammaC [(4900:ℝ)] pW1 / (([(4900:ℝ)] : List ℝ).length : ℝ) = _
    simp [sumGammaC]
  constructor
  · rw [hpiN, hpiC, abs_of_nonpos (by linarith)]
    linarith
  · intro heq
    have : gammaN pW1 4900 + gammaC pW1 4900 = 1 := by
      rw [heq]
      ring
    linarith

/-- Amended C1: over one EM iteration from parameters `p` on a non-empty
sample in which every point's total unnormalized density clears the `1e-10`
floor, the responsibilities satisfy `gamma_N = 1 - gamma_C` pointwise and the
updated weights satisfy `pi_N + pi_C = 1` exactly; when some point falls
below the floor this can fail (see the counterexample). -/
theorem em_pi_amended (data : List ℝ) (p : MixtureParams) (hne : data ≠ [])
    (h : ∀ x ∈ data, 1e-10 ≤ wCf p x + wNf p x) :
    (∀ x ∈ data, gammaN p x = 1 - gammaC p x) ∧
    (emStep data p).pi_N + (emStep data p).pi_C = 1 := by
  constructor
  · intro x hx
    have := gamma_sum_one p x (h x hx)
    linarith
  · show sumGammaN data p / (data.length : ℝ) + sumGammaC data p / (data.length : ℝ) = 1
    rw [div_add_div_same, sum_gammas data p h]
    refine div_self ?_
    exact_mod_cast fun h0 => hne (List.length_eq_zero.mp (by exact_mod_cast h0))

/-- Witness for the amended C1 on the sample `[300]` with parameters `pW1`:
the density at 300 is about `0.2`, far above the floor. -/
theorem em_pi_amended_w :
    (gammaN pW1 300 = 1 - gammaC pW1 300) ∧
    (emStep [(300:ℝ)] pW1).pi_N + (emStep [(300:ℝ)] pW1).pi_C = 1 := by
  have hdens : ∀ x ∈ [(300:ℝ)], 1e-10 ≤ wCf pW1 x + wNf pW1 x := by
    intro x hx
    rw [List.mem_singleton] at hx
    subst hx
    have h1 : wNf pW1 300 = 1 / 2 * (1 / Real.sqrt (2 * Real.pi)) := by
      rw [wNf]
      show (1:ℝ)/2 * normPdf 300 300 1 = _
      rw [normPdf_self]
    have h2 : (0:ℝ) ≤ wCf pW1 300 := by
      rw [wCf]
      exact mul_nonneg (by norm_num [pW1]) (normPdf_nonneg _ _ _ (by norm_num [pW1]))
    have h3 : (1:ℝ) / 6 ≤ wNf pW1 300 := by
      rw [h1]
      have hle := sqrt_two_pi_le_three
      have hpos : 0 < Real.sqrt (2 * Real.pi) := by
        have := one_le_sqrt_two_pi
        linarith
      rw [show (1:ℝ) / 2 * (1 / Real.sqrt (2 * Real.pi))
          = 1 / (2 * Real.sqrt (2 * Real.pi)) by ring]
      exact one_div_le_one_div_of_le (by linarith) (by linarith)
    linarith
  have h := em_pi_amended [(300:ℝ)] pW1 (by simp) hdens
  exact ⟨h.1 300 (List.mem_singleton.mpr rfl), h.2⟩

/-- One EM iteration keeps both standard deviations at or above the `1e-6`
floor: an updated deviation is a `max` with `1e-6`, a skipped update keeps
the previous value. -/
lemma emStep_sigma (data : List ℝ) (p : MixtureParams)
    (hN : 1e-6 ≤ p.sigma_N) (hC : 1e-6 ≤ p.sigma_C) :
    1e-6 ≤ (emStep data p).sigma_N ∧ 1e-6 ≤ (emStep data p).sigma_C := by
  constructor
  · show 1e-6 ≤ sigmaNStep data p
    rw [sigmaNStep]
    split_ifs
    · exact le_max_right _ _
    · exact hN
  · show 1e-6 ≤ sigmaCStep data p
    rw [sigmaCStep]
    split_ifs
    · exact le_max_right _ _
    · exact hC

/-- The deviation floor is preserved through the whole iteration loop,
whether or not the convergence break fires. -/
lemma emLoop_sigma (data : List ℝ) (tol : ℝ) :
    ∀ (k : ℕ) (prevL : Option ℝ) (p : MixtureParams),
      1e-6 ≤ p.sigma_N → 1e-6 ≤ p.sigma_C →
      1e-6 ≤ (emLoop data tol k prevL p).sigma_N ∧
      1e-6 ≤ (emLoop data tol k prevL p).sigma_C := by
  intro k
  induction k with
  | zero =>
    intro prevL p hN hC
    rw [emLoop]
    exact ⟨hN, hC⟩
  | succ k ih =>
    intro prevL p hN hC
    obtain ⟨hN', hC'⟩ := emStep_sigma data p hN hC
    cases prevL with
    | none =>
      rw [emLoop]
      exact ih _ _ hN' hC'
    | some l =>
      rw [emLoop]
      by_cases hconv : |emLogL data (emStep data p) - l| < tol
      · simp only [if_pos hconv]
        exact ⟨hN', hC'⟩
      · simp only [if_neg hconv]
        exact ih _ _ hN' hC'

/-- Claim C6: from any initial parameters whose deviations are at least
`1e-6`, both the single EM iteration and the full `em_mix` fit (on a
non-empty sample) return standard deviations at least `1e-6`. -/
theorem em_sigma_floor (data : List ℝ) (p : MixtureParams) (tol : ℝ) (max_iter : ℕ)
    (hne : data ≠ []) (hN : 1e-6 ≤ p.sigma_N) (hC : 1e-6 ≤ p.sigma_C) :
    (1e-6 ≤ (emStep data p).sigma_N ∧ 1e-6 ≤ (emStep data p).sigma_C) ∧
    (1e-6 ≤ (em_mix data p tol max_iter).sigma_N ∧
     1e-6 ≤ (em_mix data p tol max_iter).sigma_C) := by
  refine ⟨emStep_sigma data p hN hC, ?_⟩
  rw [em_mix, if_neg (fun h0 => hne (List.length_eq_zero.mp h0))]
  exact emLoop_sigma data tol max_iter none p hN hC

/-- Witness for C6 on the sample `[300]` with the default parameters and the
default tolerance and iteration cap. -/
theorem em_sigma_floor_w :
    (1e-6 ≤ (emStep [(300:ℝ)] pInit).sigma_N ∧ 1e-6 ≤ (emStep [(300:ℝ)] pInit).sigma_C) ∧
    (1e-6 ≤ (em_mix [(300:ℝ)] pInit 1e-2 100).sigma_N ∧
     1e-6 ≤ (em_mix [(300:ℝ)] pInit 1e-2 100).sigma_C) :=
  em_sigma_floor [(300:ℝ)] pInit 1e-2 100 (by simp)
    (by norm_num [pInit]) (by norm_num [pInit])
